import Mathlib

/-!
Verification of the auto-translate catalog translator.

The development shallowly embeds the program's core logic:

* the Placeholder Guard (`matchPlaceholder`, `findall`, `first_pass`,
  `second_pass`) — the fixed regex `((?:%\([^\W]{1,}\)(?:s|d))|(?:\x7b\x7b\w+\x7d\x7d))`
  is embedded as a deterministic scanner over `List Char`, and Python's
  `str.replace(old, new, 1)` as `replaceFirst`;
* the Translation Client (`Translator`, `Translator.call`) with its in-band
  error signalling and token invalidation;
* the Catalog Processor (`process`, the entry loop `runLoop`, the save
  decision `createps_saves`, language eligibility and remapping).

Strings are modelled as `List Char`.  Remote calls are abstracted by an
oracle value giving the outcome of the one HTTP interaction a code path
performs.
-/

namespace AutoTranslate

/-- `\w` of a Python 2 bytes pattern: ASCII letters, digits and underscore.
The source pattern writes it as `[^\W]{1,}`. -/
def isWordChar (c : Char) : Bool := c.isAlphanum || c == '_'

/-- After `%(` the greedy identifier run `tw` must be nonempty and the
remainder `dw` must continue with `)` then `s` or `d`. -/
def pctTail (tw : List Char) : List Char → Option (List Char × List Char)
  | d1 :: d2 :: rest2 =>
    if tw ≠ [] ∧ d1 = ')' ∧ (d2 = 's' ∨ d2 = 'd') then
      some ('%' :: '(' :: (tw ++ [d1, d2]), rest2)
    else none
  | _ => none

/-- After `\x7b\x7b` the greedy identifier run `tw` must be nonempty and the
remainder `dw` must continue with `\x7d\x7d`. -/
def braceTail (tw : List Char) : List Char → Option (List Char × List Char)
  | d1 :: d2 :: rest2 =>
    if tw ≠ [] ∧ d1 = '\x7d' ∧ d2 = '\x7d' then
      some ('\x7b' :: '\x7b' :: (tw ++ [d1, d2]), rest2)
    else none
  | _ => none

/-- One attempt of the compiled pattern at the head of the input: either a
`%(identifier)s` / `%(identifier)d` placeholder or a `\x7b\x7bidentifier\x7d\x7d`
placeholder.  Returns the matched text and the remainder after the match.
Greedy `\w+` with a following forced non-word delimiter needs no
backtracking, so `takeWhile`/`dropWhile` give the regex semantics. -/
def matchPlaceholder : List Char → Option (List Char × List Char)
  | c1 :: c2 :: rest =>
    if c1 = '%' ∧ c2 = '(' then
      pctTail (rest.takeWhile isWordChar) (rest.dropWhile isWordChar)
    else if c1 = '\x7b' ∧ c2 = '\x7b' then
      braceTail (rest.takeWhile isWordChar) (rest.dropWhile isWordChar)
    else none
  | _ => none

/-- Fuelled scanner for `regex.findall`: at each position try a match; on
success emit it and resume after the match, otherwise advance one char. -/
def findallF : Nat → List Char → List (List Char)
  | 0, _ => []
  | _ + 1, [] => []
  | fuel + 1, c :: rest =>
    match matchPlaceholder (c :: rest) with
    | some (m, rem) => m :: findallF fuel rem
    | none => findallF fuel rest

/-- `regex.findall(raw_entry)` for the placeholder pattern: the ordered,
duplicates-included list of placeholder matches. -/
def findall (s : List Char) : List (List Char) := findallF s.length s

/-- The sentinel the guard substitutes for a placeholder: `|^^|`. -/
def sentinel : List Char := ['|', '^', '^', '|']

/-- The legacy sentinel form also restored by `second_pass`: `| ^ ^ |`. -/
def legacySentinel : List Char := ['|', ' ', '^', ' ', '^', ' ', '|']

/-- Python's `thestring.replace(old, new, 1)`: replace the leftmost
occurrence of `old` (if any) by `new`. -/
def replaceFirst (old new : List Char) : List Char → List Char
  | [] => if List.isPrefixOf old [] then new else []
  | c :: rest =>
    if List.isPrefixOf old (c :: rest) then new ++ (c :: rest).drop old.length
    else c :: replaceFirst old new rest

/-- `first_pass(items, thestring)`: mask each detected placeholder, one
occurrence consumed per list element. -/
def first_pass : List (List Char) → List Char → List Char
  | [], thestring => thestring
  | item :: items, thestring => first_pass items (replaceFirst item sentinel thestring)

/-- `second_pass(items, thestring)`: restore each placeholder, replacing one
sentinel occurrence and one legacy-sentinel occurrence per list element. -/
def second_pass : List (List Char) → List Char → List Char
  | [], thestring => thestring
  | item :: items, thestring =>
      second_pass items
        (replaceFirst legacySentinel item (replaceFirst sentinel item thestring))

/-- Reference masking by scanning: each match replaced by the sentinel in
place.  `first_pass (findall s) s` is proved equal to this. -/
def maskAllF : Nat → List Char → List Char
  | 0, _ => []
  | _ + 1, [] => []
  | fuel + 1, c :: rest =>
    match matchPlaceholder (c :: rest) with
    | some (_, rem) => sentinel ++ maskAllF fuel rem
    | none => c :: maskAllF fuel rest

/-- Scanning form of the masked string. -/
def maskAll (s : List Char) : List Char := maskAllF s.length s

/-- Shape of every string the placeholder regex can match. -/
inductive Shaped : List Char → Prop
  | pct (ws : List Char) (k : Char) : ws ≠ [] → (∀ c ∈ ws, isWordChar c = true) →
      (k = 's' ∨ k = 'd') → Shaped ('%' :: '(' :: (ws ++ [')', k]))
  | brace (ws : List Char) : ws ≠ [] → (∀ c ∈ ws, isWordChar c = true) →
      Shaped ('\x7b' :: '\x7b' :: (ws ++ ['\x7d', '\x7d']))

/-- Strings that interleave sentinel blocks with characters that are neither
`|` nor `^` — the form of every (partially restored) masked string. -/
inductive MixForm : List Char → Prop
  | nil : MixForm []
  | clean (c : Char) (u : List Char) : c ≠ '|' → c ≠ '^' → MixForm u → MixForm (c :: u)
  | block (u : List Char) : MixForm u → MixForm ('|' :: '^' :: '^' :: '|' :: u)

/-! ### Translation Client -/

/-- The mutable state of a `Translator` instance. -/
structure Translator where
  access_token : Option (List Char)
  session : Bool
  langs : List (List Char)
deriving DecidableEq

/-- `Translator.__init__`: no token, no session, no cached language list. -/
def Translator.new : Translator := { access_token := none, session := false, langs := [] }

/-- A decoded JSON response body: a JSON string, or any other JSON value. -/
inductive JVal
  | jstr (s : List Char)
  | jother
deriving DecidableEq

/-- The exception taxonomy raised by `Translator.call`. -/
inductive CallErr
  | argOutOfRange
  | translateApi
  | argErr
deriving DecidableEq

/-- `str.startswith` on the model strings. -/
def strStarts (p s : List Char) : Bool := List.isPrefixOf p s

def argOutOfRangeMarker : List Char := ("ArgumentOutOfRangeException").toList

def translateApiMarker : List Char := ("TranslateApiException").toList

def argExMarker : List Char := ("ArgumentException").toList

/-- `if not self.access_token: self.get_access_token()` — fetch and store a
token (creating a session) when none is cached. -/
def ensureToken (tr : Translator) (oauthToken : List Char) : Translator :=
  if tr.access_token.isNone
  then { tr with access_token := some oauthToken, session := true } else tr

/-- `if not self.session: self.create_session()`. -/
def ensureSession (tr : Translator) : Translator :=
  if tr.session then tr else { tr with session := true }

/-- The in-band error check on the decoded JSON payload: string payloads
beginning with one of the three exception markers raise, and an
`ArgumentException` also clears the cached access token. -/
def checkRetval (tr2 : Translator) : JVal → Translator × Except CallErr JVal
  | JVal.jstr s =>
    if strStarts argOutOfRangeMarker s then (tr2, Except.error CallErr.argOutOfRange)
    else if strStarts translateApiMarker s then (tr2, Except.error CallErr.translateApi)
    else if strStarts argExMarker s then
      ({ tr2 with access_token := none }, Except.error CallErr.argErr)
    else (tr2, Except.ok (JVal.jstr s))
  | v => (tr2, Except.ok v)

/-- `Translator.call`: ensure a token (fetching `oauthToken` when absent) and
a session, then inspect the decoded JSON `retval`.  Returns the state after
the call and the outcome. -/
def Translator.call (tr : Translator) (oauthToken : List Char) (retval : JVal) :
    Translator × Except CallErr JVal :=
  checkRetval (ensureSession (ensureToken tr oauthToken)) retval

/-! ### `process`: translate one string -/

/-- The right-to-left language codes hard-coded in `process`. -/
def languages_bidi : List (List Char) :=
  [['h', 'e'], ['a', 'r'], ['f', 'a'], ['y', 'i']]

/-- Outcome of the one remote `translate` call `process` may perform,
abstracting the HTTP exchange inside `Translator.translate`. -/
inductive CallOutcome
  | ok (s : List Char)
  | argOutOfRange
  | translateApi
  | argErr
deriving DecidableEq

/-- What a `process` call did: whether it forced a token refresh, and its
result (`Except.ok none` models Python's `return None`). -/
structure ProcResult where
  refreshed : Bool
  result : Except CallErr (Option (List Char))

/-- `process(translator, raw_entry, language, sentry, regex)`.  Time is in
minutes.  A placeholder-bearing entry for a bidi language returns `None`
before the sentry check; otherwise placeholders are masked, the sentry is
checked (refresh forced when `now ≥ sentry`), `translator.translate` is
called on the masked text (`translate` abstracts the remote exchange), and
placeholders are restored in the reply. -/
def process (translate : List Char → CallOutcome) (raw_entry language : List Char)
    (now sentry : Nat) : ProcResult :=
  let found := findall raw_entry
  if found ≠ [] ∧ language ∈ languages_bidi then
    { refreshed := false, result := Except.ok none }
  else
    let masked := if found ≠ [] then first_pass found raw_entry else raw_entry
    let refreshed := sentry ≤ now
    match translate masked with
    | CallOutcome.ok t =>
        let t2 := if found ≠ [] then second_pass found t else t
        { refreshed := refreshed, result := Except.ok (some t2) }
    | CallOutcome.argOutOfRange =>
        { refreshed := refreshed, result := Except.error CallErr.argOutOfRange }
    | CallOutcome.translateApi =>
        { refreshed := refreshed, result := Except.error CallErr.translateApi }
    | CallOutcome.argErr =>
        { refreshed := refreshed, result := Except.error CallErr.argErr }

/-- The rebinding of `sentry` at the end of `process`'s refresh branch
(lines 285-286).  The new value is local to the call: `createps` never sees
it, because Python rebinds only the function-local name. -/
def process_local_sentry_after (now sentry : Nat) : Nat :=
  if sentry ≤ now then now + 8 else sentry

/-- The sequence of refresh decisions seen by `createps`'s entry loop: the
same `sentry` value is passed to `process` for every entry (the loop never
rebinds it), each call happening at the corresponding time. -/
def createps_refresh_seq (sentry : Nat) (times : List Nat) : List Bool :=
  times.map (fun t =>
    (process (fun _ => CallOutcome.ok []) ['h', 'i'] ['f', 'r'] t sentry).refreshed)

/-! ### `createps`: the per-file entry loop -/

/-- Result of one `process` call as seen by the entry loop. -/
inductive PResult
  | ok (v : Option (List Char))
  | recov
  | fatal
deriving DecidableEq

/-- One untranslated catalog entry, described by what its `process` calls
produce: `r1` for `msgid`, `r2` for `msgid_plural` (used when `hasPlural`). -/
structure EntrySpec where
  hasPlural : Bool
  r1 : PResult
  r2 : PResult
deriving DecidableEq

/-- The translation fields of an entry after the run (all unset initially,
as the loop ranges over `untranslated_entries`). -/
structure EntryOut where
  msgstr : Option (List Char)
  p0 : Option (List Char)
  p1 : Option (List Char)
deriving DecidableEq

/-- How an entry's iteration ended. -/
inductive EntryEnd
  | normal
  | recovErr
  | fatalErr
deriving DecidableEq

/-- Python truthiness of a `process` result: `None` and `""` are falsy. -/
def truthy : Option (List Char) → Bool
  | none => false
  | some s => !s.isEmpty

/-- `if msgstr: field = msgstr` — store only truthy results. -/
def store (v : Option (List Char)) : Option (List Char) :=
  if truthy v then v else none

/-- One iteration of the entry loop (lines 312-326): translate `msgid`,
store into `msgstr_plural['0']` or `msgstr`, then for plural entries
translate `msgid_plural` and store into `msgstr_plural['1']`.  Recoverable
exceptions end the iteration (caught at the loop); `ArgumentException` ends
the whole file. -/
def runEntry (e : EntrySpec) : EntryOut × EntryEnd :=
  match e.r1 with
  | PResult.recov => (⟨none, none, none⟩, EntryEnd.recovErr)
  | PResult.fatal => (⟨none, none, none⟩, EntryEnd.fatalErr)
  | PResult.ok v =>
    if e.hasPlural then
      match e.r2 with
      | PResult.recov => (⟨none, store v, none⟩, EntryEnd.recovErr)
      | PResult.fatal => (⟨none, store v, none⟩, EntryEnd.fatalErr)
      | PResult.ok w => (⟨none, store v, store w⟩, EntryEnd.normal)
    else (⟨store v, none, none⟩, EntryEnd.normal)

/-- The entry loop: `do_save = True` runs only when an iteration completes
without an exception; a recoverable exception is caught and the loop
continues; `ArgumentException` aborts the loop (and the save) for this
file.  Returns the processed entries' fields, the final `do_save`, and
whether the file was aborted. -/
def runLoop : List EntrySpec → Bool → List EntryOut × Bool × Bool
  | [], dosave => ([], dosave, false)
  | e :: es, dosave =>
    match runEntry e with
    | (out, EntryEnd.fatalErr) => ([out], dosave, true)
    | (out, EntryEnd.recovErr) =>
      let r := runLoop es dosave
      (out :: r.1, r.2)
    | (out, EntryEnd.normal) =>
      let r := runLoop es true
      (out :: r.1, r.2)

/-- Whether `createps` writes the file back: `do_save` must be set and the
loop must not have been aborted by `ArgumentException` (the save statement
sits inside the same `try`). -/
def createps_saves (es : List EntrySpec) : Bool :=
  (runLoop es false).2.1 && !(runLoop es false).2.2

/-- Whether a translation field of the entry was actually mutated. -/
def entryMutated (o : EntryOut) : Bool :=
  o.msgstr.isSome || o.p0.isSome || o.p1.isSome

/-! ### `translate_array` options -/

/-- A Python value as relevant here: `None` or a dict. -/
inductive PyVal
  | vnone
  | vdict (d : List (List Char × List Char))
deriving DecidableEq

/-- The defaults dict literal in `translate_array` (lines 221-227). -/
def defaultOptions : List (List Char × List Char) :=
  [ (("Category").toList, ("general").toList),
    (("Contenttype").toList, ("text/plain").toList),
    (("Uri").toList, []),
    (("User").toList, ("default").toList),
    (("State").toList, []) ]

/-- Python's `d.update(o)` mutates `d` in place and returns `None`; the
value of the expression — which is what `translate_array` binds — is
always `None`. -/
def dict_update_return (_d _updates : List (List Char × List Char)) : PyVal :=
  PyVal.vnone

/-- The `options` value `translate_array` actually sends: the result of
`{defaults}.update(options)`. -/
def translate_array_options (callerOptions : List (List Char × List Char)) : PyVal :=
  dict_update_return defaultOptions callerOptions

/-- Modelled from the spec: the deep merge `translate_array` is documented
to perform — every key the caller supplies takes the caller's value, every
omitted key keeps its default (and caller-only keys are kept).  This is the
spec's mandated behaviour, absent from the source. -/
def specMergedOptions (callerOptions : List (List Char × List Char)) :
    List (List Char × List Char) :=
  defaultOptions.map (fun kv =>
    (kv.1, ((callerOptions.find? (fun p => decide (p.1 = kv.1))).map Prod.snd).getD kv.2))
  ++ callerOptions.filter (fun p => defaultOptions.all (fun kv => decide (kv.1 ≠ p.1)))

/-! ### Per-file client and language handling -/

/-- Line 296: `trans = Translator(client_id, api_key)` — the client a file
is processed with is constructed afresh inside `createps`, whatever client
any previously processed file used. -/
def createps_translator (_prevFileClient : Translator) : Translator :=
  Translator.new

/-- `os.path.dirname` on a path given as components. -/
def dirnameC (p : List (List Char)) : List (List Char) := p.dropLast

/-- `os.path.basename` on a path given as components. -/
def basenameC (p : List (List Char)) : List Char := (p.getLast?).getD []

/-- `get_lang`: the parent-of-parent directory name of the catalog file. -/
def get_lang (path : List (List Char)) : List Char :=
  basenameC (dirnameC (dirnameC path))

def zhCode : List Char := ['z', 'h']

def zhCHS : List Char := ['z', 'h', '-', 'C', 'H', 'S']

/-- Line 302: the file is skipped when the language is unsupported or equals
the source language — unless it is `zh`. -/
def createps_skip (supported : List (List Char)) (default_lang lang : List Char) : Bool :=
  (!(decide (lang ∈ supported)) || decide (lang = default_lang)) && !(decide (lang = zhCode))

/-- Lines 309-310: remap `zh` to `zh-CHS` before the entry loop. -/
def createps_target_lang (lang : List Char) : List Char :=
  if lang = zhCode then zhCHS else lang

end AutoTranslate

namespace AutoTranslate

/-! ### Prefix-testing lemmas -/

theorem isP_iff_append {t v : List Char} :
    List.isPrefixOf t v = true ↔ ∃ w, t ++ w = v := by
  induction t generalizing v with
  | nil => simp [List.isPrefixOf]
  | cons a t ih =>
    cases v with
    | nil => simp [List.isPrefixOf]
    | cons b v2 =>
      simp only [List.isPrefixOf, Bool.and_eq_true, beq_iff_eq, ih, List.cons_append,
        List.cons.injEq]
      constructor
      · rintro ⟨hab, w, hw⟩; exact ⟨w, hab, hw⟩
      · rintro ⟨w, hab, hw⟩; exact ⟨hab, w, hw⟩

theorem isP_append (t w : List Char) : List.isPrefixOf t (t ++ w) = true :=
  isP_iff_append.mpr ⟨w, rfl⟩

theorem isP_length {t v : List Char} (h : List.isPrefixOf t v = true) :
    t.length ≤ v.length := by
  rcases isP_iff_append.mp h with ⟨w, rfl⟩
  simp

theorem isP_mem {t v : List Char} (h : List.isPrefixOf t v = true) {a : Char}
    (ha : a ∈ t) : a ∈ v := by
  rcases isP_iff_append.mp h with ⟨w, rfl⟩
  exact List.mem_append_left w ha

theorem isP_trans_le {t p v : List Char} (ht : List.isPrefixOf t v = true)
    (hp : List.isPrefixOf p v = true) (hlen : t.length ≤ p.length) :
    List.isPrefixOf t p = true := by
  rcases isP_iff_append.mp ht with ⟨w, hw⟩
  rcases isP_iff_append.mp hp with ⟨u, hu⟩
  have h : t ++ w = p ++ u := hw.trans hu.symm
  rcases List.append_eq_append_iff.mp h with ⟨a, ha, _⟩ | ⟨c, hc, _⟩
  · exact isP_iff_append.mpr ⟨a, ha.symm⟩
  · have : p.length + c.length ≤ p.length := by
      have := congrArg List.length hc
      simp at this
      omega
    have hc0 : c = [] := by
      cases c with
      | nil => rfl
      | cons x xs => simp at this
    subst hc0
    simp at hc
    subst hc
    exact isP_iff_append.mpr ⟨[], by simp⟩

theorem isP_head {a : Char} {t v2 : List Char} {b : Char}
    (h : List.isPrefixOf (a :: t) (b :: v2) = true) : a = b ∧ List.isPrefixOf t v2 = true := by
  simpa [List.isPrefixOf, Bool.and_eq_true, beq_iff_eq] using h

/-! ### takeWhile / dropWhile on a delimited run -/

theorem takeWhile_all {p : Char → Bool} {l : List Char} {y : Char} (t : List Char)
    (h : ∀ c ∈ l, p c = true) (hy : p y = false) :
    (l ++ y :: t).takeWhile p = l := by
  induction l with
  | nil => simp [List.takeWhile_cons, hy]
  | cons a l ih =>
    have ha : p a = true := h a (List.mem_cons_self a l)
    simp only [List.cons_append, List.takeWhile_cons, ha, if_true]
    rw [ih (fun c hc => h c (List.mem_cons_of_mem a hc))]

theorem dropWhile_all {p : Char → Bool} {l : List Char} {y : Char} (t : List Char)
    (h : ∀ c ∈ l, p c = true) (hy : p y = false) :
    (l ++ y :: t).dropWhile p = y :: t := by
  induction l with
  | nil => simp [List.dropWhile_cons, hy]
  | cons a l ih =>
    have ha : p a = true := h a (List.mem_cons_self a l)
    simp only [List.cons_append, List.dropWhile_cons, ha, if_true]
    exact ih (fun c hc => h c (List.mem_cons_of_mem a hc))

/-! ### Facts about the shape of matches -/

theorem mem_of_takeWhile {p : Char → Bool} {l : List Char} {a : Char}
    (h : a ∈ l.takeWhile p) : p a = true := by
  induction l with
  | nil => simp [List.takeWhile] at h
  | cons b l ih =>
    rw [List.takeWhile_cons] at h
    by_cases hb : p b = true
    · rw [if_pos hb] at h
      rcases List.mem_cons.mp h with rfl | h2
      · exact hb
      · exact ih h2
    · rw [if_neg hb] at h
      simp at h

theorem shaped_ne_nil {m : List Char} (h : Shaped m) : m ≠ [] := by
  cases h <;> simp

theorem shaped_chars {m : List Char} (h : Shaped m) {c : Char} (hc : c ∈ m) :
    c = '%' ∨ c = '(' ∨ c = ')' ∨ c = '\x7b' ∨ c = '\x7d' ∨ isWordChar c = true := by
  cases h with
  | pct ws k hne hw hk =>
    rcases List.mem_cons.mp hc with rfl | hc2
    · exact Or.inl rfl
    rcases List.mem_cons.mp hc2 with rfl | hc3
    · exact Or.inr (Or.inl rfl)
    rcases List.mem_append.mp hc3 with hcw | hck
    · exact Or.inr (Or.inr (Or.inr (Or.inr (Or.inr (hw c hcw)))))
    rcases List.mem_cons.mp hck with rfl | hck2
    · exact Or.inr (Or.inr (Or.inl rfl))
    rcases List.mem_cons.mp hck2 with rfl | hck3
    · rcases hk with rfl | rfl <;>
        exact Or.inr (Or.inr (Or.inr (Or.inr (Or.inr (by decide)))))
    · simp at hck3
  | brace ws hne hw =>
    rcases List.mem_cons.mp hc with rfl | hc2
    · exact Or.inr (Or.inr (Or.inr (Or.inl rfl)))
    rcases List.mem_cons.mp hc2 with rfl | hc3
    · exact Or.inr (Or.inr (Or.inr (Or.inl rfl)))
    rcases List.mem_append.mp hc3 with hcw | hck
    · exact Or.inr (Or.inr (Or.inr (Or.inr (Or.inr (hw c hcw)))))
    rcases List.mem_cons.mp hck with rfl | hck2
    · exact Or.inr (Or.inr (Or.inr (Or.inr (Or.inl rfl))))
    rcases List.mem_cons.mp hck2 with rfl | hck3
    · exact Or.inr (Or.inr (Or.inr (Or.inr (Or.inl rfl))))
    · simp at hck3

theorem shaped_bar {m : List Char} (h : Shaped m) : '|' ∉ m := by
  intro hc
  rcases shaped_chars h hc with h1 | h1 | h1 | h1 | h1 | h1 <;> exact absurd h1 (by decide)

theorem shaped_caret {m : List Char} (h : Shaped m) : '^' ∉ m := by
  intro hc
  rcases shaped_chars h hc with h1 | h1 | h1 | h1 | h1 | h1 <;> exact absurd h1 (by decide)

theorem pctTail_spec {tw dw m rem : List Char} (h : pctTail tw dw = some (m, rem))
    (hw : ∀ c ∈ tw, isWordChar c = true) :
    Shaped m ∧ m ++ rem = '%' :: '(' :: (tw ++ dw) := by
  cases dw with
  | nil => exact Option.noConfusion h
  | cons d1 ds =>
    cases ds with
    | nil => exact Option.noConfusion h
    | cons d2 rest2 =>
      by_cases h2 : tw ≠ [] ∧ d1 = ')' ∧ (d2 = 's' ∨ d2 = 'd')
      · rw [pctTail, if_pos h2] at h
        simp only [Option.some.injEq, Prod.mk.injEq] at h
        obtain ⟨hm, hrem⟩ := h
        obtain ⟨hne, rfl, hk⟩ := h2
        subst hm hrem
        exact ⟨Shaped.pct _ d2 hne hw hk, by simp⟩
      · rw [pctTail, if_neg h2] at h
        simp at h

theorem braceTail_spec {tw dw m rem : List Char} (h : braceTail tw dw = some (m, rem))
    (hw : ∀ c ∈ tw, isWordChar c = true) :
    Shaped m ∧ m ++ rem = '\x7b' :: '\x7b' :: (tw ++ dw) := by
  cases dw with
  | nil => exact Option.noConfusion h
  | cons d1 ds =>
    cases ds with
    | nil => exact Option.noConfusion h
    | cons d2 rest2 =>
      by_cases h2 : tw ≠ [] ∧ d1 = '\x7d' ∧ d2 = '\x7d'
      · rw [braceTail, if_pos h2] at h
        simp only [Option.some.injEq, Prod.mk.injEq] at h
        obtain ⟨hm, hrem⟩ := h
        obtain ⟨hne, rfl, rfl⟩ := h2
        subst hm hrem
        exact ⟨Shaped.brace _ hne hw, by simp⟩
      · rw [braceTail, if_neg h2] at h
        simp at h

theorem match_spec {v m rem : List Char} (h : matchPlaceholder v = some (m, rem)) :
    Shaped m ∧ v = m ++ rem := by
  cases v with
  | nil => simp [matchPlaceholder] at h
  | cons c1 v1 =>
    cases v1 with
    | nil => simp [matchPlaceholder] at h
    | cons c2 rest =>
      simp only [matchPlaceholder] at h
      have hsplit : rest.takeWhile isWordChar ++ rest.dropWhile isWordChar = rest :=
        List.takeWhile_append_dropWhile isWordChar rest
      by_cases h1 : c1 = '%' ∧ c2 = '('
      · rw [if_pos h1] at h
        obtain ⟨rfl, rfl⟩ := h1
        obtain ⟨hs, he⟩ := pctTail_spec h (fun c hc => mem_of_takeWhile hc)
        rw [hsplit] at he
        exact ⟨hs, he.symm⟩
      · rw [if_neg h1] at h
        by_cases h1b : c1 = '\x7b' ∧ c2 = '\x7b'
        · rw [if_pos h1b] at h
          obtain ⟨rfl, rfl⟩ := h1b
          obtain ⟨hs, he⟩ := braceTail_spec h (fun c hc => mem_of_takeWhile hc)
          rw [hsplit] at he
          exact ⟨hs, he.symm⟩
        · rw [if_neg h1b] at h
          exact Option.noConfusion h

theorem shaped_match {m : List Char} (h : Shaped m) (w : List Char) :
    matchPlaceholder (m ++ w) = some (m, w) := by
  cases h with
  | pct ws k hne hw hk =>
    have heq : ('%' :: '(' :: (ws ++ [')', k])) ++ w = '%' :: '(' :: (ws ++ ')' :: k :: w) := by
      simp
    rw [heq]
    have htw : (ws ++ ')' :: k :: w).takeWhile isWordChar = ws :=
      takeWhile_all _ hw (by decide)
    have hdw : (ws ++ ')' :: k :: w).dropWhile isWordChar = ')' :: k :: w :=
      dropWhile_all _ hw (by decide)
    rcases hk with rfl | rfl <;> simp [matchPlaceholder, htw, hdw, pctTail, hne]
  | brace ws hne hw =>
    have heq : ('\x7b' :: '\x7b' :: (ws ++ ['\x7d', '\x7d'])) ++ w
        = '\x7b' :: '\x7b' :: (ws ++ '\x7d' :: '\x7d' :: w) := by
      simp
    rw [heq]
    have htw : (ws ++ '\x7d' :: '\x7d' :: w).takeWhile isWordChar = ws :=
      takeWhile_all _ hw (by decide)
    have hdw : (ws ++ '\x7d' :: '\x7d' :: w).dropWhile isWordChar = '\x7d' :: '\x7d' :: w :=
      dropWhile_all _ hw (by decide)
    simp [matchPlaceholder, htw, hdw, braceTail, hne]

theorem match_none_not_pre {v m : List Char} (hv : matchPlaceholder v = none)
    (hm : Shaped m) (hp : List.isPrefixOf m v = true) : False := by
  rcases isP_iff_append.mp hp with ⟨w, rfl⟩
  rw [shaped_match hm w] at hv
  exact Option.noConfusion hv

theorem match_some_lt {v m rem : List Char} (h : matchPlaceholder v = some (m, rem)) :
    rem.length < v.length := by
  obtain ⟨hs, rfl⟩ := match_spec h
  have hne := shaped_ne_nil hs
  cases m with
  | nil => exact absurd rfl hne
  | cons a l => simp [List.length_append]; omega

/-! ### Unfolding the fuelled scanners -/

theorem findallF_congr : ∀ (f1 : Nat) {f2 : Nat} {s : List Char},
    s.length ≤ f1 → s.length ≤ f2 → findallF f1 s = findallF f2 s := by
  intro f1
  induction f1 with
  | zero =>
    intro f2 s h1 _
    have hs : s = [] := List.length_eq_zero.mp (Nat.le_zero.mp h1)
    subst hs
    cases f2 <;> rfl
  | succ f ih =>
    intro f2 s h1 h2
    cases s with
    | nil => cases f2 <;> rfl
    | cons c rest =>
      cases f2 with
      | zero => simp at h2
      | succ g =>
        cases hm : matchPlaceholder (c :: rest) with
        | none =>
          simp only [findallF, hm]
          exact ih (by simpa using Nat.le_of_succ_le_succ h1)
            (by simpa using Nat.le_of_succ_le_succ h2)
        | some p =>
          obtain ⟨m, rem⟩ := p
          have hlt := match_some_lt hm
          simp only [List.length_cons] at h1 h2 hlt
          simp only [findallF, hm]
          rw [ih (by omega) (by omega : rem.length ≤ g)]

theorem findall_nil : findall [] = [] := rfl

theorem findall_cons_none {c : Char} {rest : List Char}
    (h : matchPlaceholder (c :: rest) = none) : findall (c :: rest) = findall rest := by
  unfold findall
  simp only [List.length_cons, findallF, h]

theorem findall_cons_some {v m rem : List Char} (h : matchPlaceholder v = some (m, rem)) :
    findall v = m :: findall rem := by
  cases v with
  | nil => simp [matchPlaceholder] at h
  | cons c rest =>
    have hlt := match_some_lt h
    simp only [List.length_cons] at hlt
    unfold findall
    simp only [List.length_cons, findallF, h]
    rw [findallF_congr rest.length (by omega) (le_refl rem.length)]

theorem maskAllF_congr : ∀ (f1 : Nat) {f2 : Nat} {s : List Char},
    s.length ≤ f1 → s.length ≤ f2 → maskAllF f1 s = maskAllF f2 s := by
  intro f1
  induction f1 with
  | zero =>
    intro f2 s h1 _
    have hs : s = [] := List.length_eq_zero.mp (Nat.le_zero.mp h1)
    subst hs
    cases f2 <;> rfl
  | succ f ih =>
    intro f2 s h1 h2
    cases s with
    | nil => cases f2 <;> rfl
    | cons c rest =>
      cases f2 with
      | zero => simp at h2
      | succ g =>
        cases hm : matchPlaceholder (c :: rest) with
        | none =>
          simp only [maskAllF, hm]
          rw [ih (by simpa using Nat.le_of_succ_le_succ h1)
            (by simpa using Nat.le_of_succ_le_succ h2)]
        | some p =>
          obtain ⟨m, rem⟩ := p
          have hlt := match_some_lt hm
          simp only [List.length_cons] at h1 h2 hlt
          simp only [maskAllF, hm]
          rw [ih (by omega) (by omega : rem.length ≤ g)]

theorem maskAll_nil : maskAll [] = [] := rfl

theorem maskAll_cons_none {c : Char} {rest : List Char}
    (h : matchPlaceholder (c :: rest) = none) : maskAll (c :: rest) = c :: maskAll rest := by
  unfold maskAll
  simp only [List.length_cons, maskAllF, h]

theorem maskAll_cons_some {v m rem : List Char} (h : matchPlaceholder v = some (m, rem)) :
    maskAll v = sentinel ++ maskAll rem := by
  cases v with
  | nil => simp [matchPlaceholder] at h
  | cons c rest =>
    have hlt := match_some_lt h
    simp only [List.length_cons] at hlt
    unfold maskAll
    simp only [List.length_cons, maskAllF, h]
    rw [maskAllF_congr rest.length (by omega) (le_refl rem.length)]

/-! ### Leftmost-match decomposition -/

theorem exists_decomp (s : List Char) :
    (∀ k, matchPlaceholder (s.drop k) = none) ∨
    ∃ ch m rem, s = ch ++ m ++ rem ∧
      (∀ k, k < ch.length → matchPlaceholder (s.drop k) = none) ∧
      matchPlaceholder (s.drop ch.length) = some (m, rem) := by
  induction s with
  | nil =>
    left
    intro k
    simp [matchPlaceholder]
  | cons c rest ih =>
    cases hm : matchPlaceholder (c :: rest) with
    | some p =>
      obtain ⟨m, rem⟩ := p
      right
      obtain ⟨_, hv⟩ := match_spec hm
      refine ⟨[], m, rem, by simpa using hv, ?_, by simpa using hm⟩
      intro k hk
      simp at hk
    | none =>
      rcases ih with hbar | ⟨ch, m, rem, he, hnone, hsome⟩
      · left
        intro k
        cases k with
        | zero => simpa using hm
        | succ k => simpa using hbar k
      · right
        refine ⟨c :: ch, m, rem, by simp [he], ?_, ?_⟩
        · intro k hk
          cases k with
          | zero => simpa using hm
          | succ k =>
            simp only [List.drop_succ_cons]
            exact hnone k (by simpa using Nat.lt_of_succ_lt_succ hk)
        · simp only [List.length_cons, List.drop_succ_cons]
          exact hsome

theorem findall_chunk {x : List Char} : ∀ {ch : List Char},
    (∀ k, k < ch.length → matchPlaceholder ((ch ++ x).drop k) = none) →
    findall (ch ++ x) = findall x := by
  intro ch
  induction ch with
  | nil => simp
  | cons c ch ih =>
    intro h
    have h0 := h 0 (by simp)
    simp only [List.drop_zero, List.cons_append] at h0
    rw [List.cons_append, findall_cons_none h0]
    exact ih (fun k hk => by simpa using h (k + 1) (by simpa using Nat.succ_lt_succ hk))

theorem maskAll_chunk {x : List Char} : ∀ {ch : List Char},
    (∀ k, k < ch.length → matchPlaceholder ((ch ++ x).drop k) = none) →
    maskAll (ch ++ x) = ch ++ maskAll x := by
  intro ch
  induction ch with
  | nil => simp
  | cons c ch ih =>
    intro h
    have h0 := h 0 (by simp)
    simp only [List.drop_zero, List.cons_append] at h0
    rw [List.cons_append, maskAll_cons_none h0, ih
      (fun k hk => by simpa using h (k + 1) (by simpa using Nat.succ_lt_succ hk))]
    rfl

theorem findall_barren : ∀ {s : List Char},
    (∀ k, matchPlaceholder (s.drop k) = none) → findall s = [] := by
  intro s
  induction s with
  | nil => intro _; rfl
  | cons c rest ih =>
    intro h
    rw [findall_cons_none (by simpa using h 0)]
    exact ih (fun k => by simpa using h (k + 1))

theorem maskAll_barren : ∀ {s : List Char},
    (∀ k, matchPlaceholder (s.drop k) = none) → maskAll s = s := by
  intro s
  induction s with
  | nil => intro _; rfl
  | cons c rest ih =>
    intro h
    rw [maskAll_cons_none (by simpa using h 0)]
    rw [ih (fun k => by simpa using h (k + 1))]

/-! ### Positioning `replaceFirst` -/

/-- `t` occurs nowhere inside `p` (as a contiguous substring). -/
def noOcc (t p : List Char) : Prop := ∀ k, List.isPrefixOf t (p.drop k) = false

theorem isP_cons_build {a b : Char} {t v : List Char} (hab : a = b)
    (h : List.isPrefixOf t v = true) : List.isPrefixOf (a :: t) (b :: v) = true := by
  subst hab
  simp [List.isPrefixOf, h]

theorem isP_extend {t a b : List Char} (h : List.isPrefixOf t a = true) :
    List.isPrefixOf t (a ++ b) = true := by
  rcases isP_iff_append.mp h with ⟨w, rfl⟩
  exact isP_iff_append.mpr ⟨w ++ b, by simp⟩

theorem pre_confine {x : Char} {b : List Char} : ∀ {t a : List Char}, x ∉ t →
    List.isPrefixOf t (a ++ x :: b) = true → List.isPrefixOf t a = true := by
  intro t
  induction t with
  | nil => intro a _ _; exact isP_iff_append.mpr ⟨a, rfl⟩
  | cons c t ih =>
    intro a hx h
    cases a with
    | nil =>
      obtain ⟨hc, _⟩ := isP_head (by simpa using h)
      exact absurd (hc ▸ List.mem_cons_self c t) hx
    | cons a0 a2 =>
      obtain ⟨hc, h2⟩ := isP_head (by simpa using h)
      exact isP_cons_build hc (ih (fun hm => hx (List.mem_cons_of_mem c hm)) h2)

theorem replaceFirst_exact {old : List Char} : ∀ {q : List Char} {new w : List Char},
    (∀ k, k < q.length → List.isPrefixOf old ((q ++ old ++ w).drop k) = false) →
    replaceFirst old new (q ++ old ++ w) = q ++ new ++ w := by
  intro q
  induction q with
  | nil =>
    intro new w _
    simp only [List.nil_append]
    cases h : old ++ w with
    | nil =>
      have ho : old = [] := by cases old <;> simp_all
      have hw : w = [] := by cases w <;> simp_all
      subst ho hw
      simp [replaceFirst]
    | cons a l =>
      have hp : List.isPrefixOf old (a :: l) = true := by
        rw [← h]; exact isP_append old w
      simp only [replaceFirst]
      rw [if_pos hp, ← h, List.drop_left]
  | cons c q ih =>
    intro new w h
    have h0 : List.isPrefixOf old (c :: (q ++ old ++ w)) = false := by
      have h' := h 0 (by simp)
      rw [List.drop_zero, List.cons_append, List.cons_append] at h'
      exact h'
    have key : replaceFirst old new (c :: (q ++ old ++ w))
        = c :: replaceFirst old new (q ++ old ++ w) := by
      simp only [replaceFirst]
      rw [if_neg (fun hcon => by rw [h0] at hcon; exact Bool.noConfusion hcon)]
    simp only [List.cons_append]
    rw [key]
    exact congrArg (List.cons c) (ih (fun k hk => by
      have h' := h (k + 1) (by simp only [List.length_cons]; omega)
      rw [List.cons_append, List.cons_append, List.drop_succ_cons] at h'
      exact h'))

theorem replaceFirst_nil (old new : List Char) (h : List.isPrefixOf old [] = false) :
    replaceFirst old new [] = [] := by
  simp only [replaceFirst]
  rw [if_neg (fun hcon => by rw [h] at hcon; exact Bool.noConfusion hcon)]

theorem replaceFirst_cons_skip {old : List Char} (new : List Char) {c : Char}
    {rest : List Char} (h : List.isPrefixOf old (c :: rest) = false) :
    replaceFirst old new (c :: rest) = c :: replaceFirst old new rest := by
  simp only [replaceFirst]
  rw [if_neg (fun hcon => by rw [h] at hcon; exact Bool.noConfusion hcon)]

theorem replaceFirst_cons_hit {old : List Char} (new : List Char) {c : Char}
    {rest : List Char} (h : List.isPrefixOf old (c :: rest) = true) :
    replaceFirst old new (c :: rest) = new ++ (c :: rest).drop old.length := by
  simp only [replaceFirst]
  rw [if_pos h]

theorem replaceFirst_no_hit {old new : List Char} : ∀ {u : List Char},
    (∀ k, List.isPrefixOf old (u.drop k) = false) → replaceFirst old new u = u := by
  intro u
  induction u with
  | nil =>
    intro h
    have h0 := h 0
    rw [List.drop_nil] at h0
    exact replaceFirst_nil old new h0
  | cons c rest ih =>
    intro h
    have h0 := h 0
    rw [List.drop_zero] at h0
    rw [replaceFirst_cons_skip new h0]
    exact congrArg (List.cons c) (ih (fun k => by
      have h2 := h (k + 1)
      rw [List.drop_succ_cons] at h2
      exact h2))

theorem not_pre_append {t p u : List Char} (hne : t ≠ []) (hbar : '|' ∉ t)
    (hocc : noOcc t p) (hlast : ∃ q, p = q ++ ['|']) :
    List.isPrefixOf t (p ++ u) = false := by
  cases htr : List.isPrefixOf t (p ++ u) with
  | false => rfl
  | true =>
    exfalso
    rcases le_or_lt t.length p.length with hlen | hlen
    · have hp : List.isPrefixOf t p = true := isP_trans_le htr (isP_append p u) hlen
      have h2 := hocc 0
      rw [List.drop_zero] at h2
      rw [hp] at h2
      exact Bool.noConfusion h2
    · have hp : List.isPrefixOf p t = true :=
        isP_trans_le (isP_append p u) htr (Nat.le_of_lt hlen)
      rcases hlast with ⟨q, rfl⟩
      exact hbar (isP_mem hp (by simp))

theorem replaceFirst_append_right {t : List Char} : ∀ {p : List Char} {new u : List Char},
    t ≠ [] → '|' ∉ t → noOcc t p → (p = [] ∨ ∃ q, p = q ++ ['|']) →
    replaceFirst t new (p ++ u) = p ++ replaceFirst t new u := by
  intro p
  induction p with
  | nil => intro new u _ _ _ _; rfl
  | cons c p ih =>
    intro new u hne hbar hocc hlast
    rcases hlast with h0 | ⟨q, hq⟩
    · exact absurd h0 (by simp)
    have hnp : List.isPrefixOf t (c :: (p ++ u)) = false := by
      have := @not_pre_append t (c :: p) u hne hbar hocc ⟨q, hq⟩
      rw [List.cons_append] at this
      exact this
    rw [List.cons_append, replaceFirst_cons_skip new hnp]
    have hocc2 : noOcc t p := fun k => by
      have h2 := hocc (k + 1)
      rw [List.drop_succ_cons] at h2
      exact h2
    have hlast2 : p = [] ∨ ∃ q2, p = q2 ++ ['|'] := by
      cases q with
      | nil =>
        left
        have h3 : c :: p = ['|'] := by simpa using hq
        exact (List.cons.injEq _ _ _ _ ▸ h3).2
      | cons c2 q2 =>
        right
        refine ⟨q2, ?_⟩
        have h3 := hq
        rw [List.cons_append] at h3
        exact (List.cons.injEq _ _ _ _ ▸ h3).2
    exact congrArg (List.cons c) (ih hne hbar hocc2 hlast2)

theorem first_pass_append_right {items : List (List Char)} : ∀ {p u : List Char},
    (∀ t ∈ items, Shaped t) → (∀ t ∈ items, noOcc t p) →
    (p = [] ∨ ∃ q, p = q ++ ['|']) →
    first_pass items (p ++ u) = p ++ first_pass items u := by
  induction items with
  | nil => intro p u _ _ _; rfl
  | cons t items ih =>
    intro p u hsh hocc hlast
    simp only [first_pass]
    rw [replaceFirst_append_right (shaped_ne_nil (hsh t (List.mem_cons_self t items)))
      (shaped_bar (hsh t (List.mem_cons_self t items))) (hocc t (List.mem_cons_self t items))
      hlast]
    exact ih (fun t2 ht2 => hsh t2 (List.mem_cons_of_mem t ht2))
      (fun t2 ht2 => hocc t2 (List.mem_cons_of_mem t ht2)) hlast

/-! ### All matches are at barren-prefix positions -/

theorem findall_shaped : ∀ (fuel : Nat) {s t : List Char}, t ∈ findallF fuel s → Shaped t := by
  intro fuel
  induction fuel with
  | zero => intro s t ht; simp [findallF] at ht
  | succ f ih =>
    intro s t ht
    cases s with
    | nil => simp [findallF] at ht
    | cons c rest =>
      cases hm : matchPlaceholder (c :: rest) with
      | none =>
        simp only [findallF, hm] at ht
        exact ih ht
      | some p =>
        obtain ⟨m, rem⟩ := p
        simp only [findallF, hm, List.mem_cons] at ht
        rcases ht with rfl | ht
        · exact (match_spec hm).1
        · exact ih ht

theorem mem_findall_shaped {s t : List Char} (ht : t ∈ findall s) : Shaped t :=
  findall_shaped s.length ht

theorem not_pre_sent_suffix {t : List Char} (hne : t ≠ []) (hbar : '|' ∉ t)
    (hcaret : '^' ∉ t) : ∀ j, 1 ≤ j → List.isPrefixOf t (sentinel.drop j) = false := by
  intro j hj
  cases t with
  | nil => exact absurd rfl hne
  | cons c t2 =>
    match j with
    | 1 =>
      cases hp : List.isPrefixOf (c :: t2) (sentinel.drop 1) with
      | false => rfl
      | true =>
        have hd : sentinel.drop 1 = ['^', '^', '|'] := rfl
        rw [hd] at hp
        obtain ⟨hc, _⟩ := isP_head hp
        exact absurd (hc ▸ List.mem_cons_self c t2) hcaret
    | 2 =>
      cases hp : List.isPrefixOf (c :: t2) (sentinel.drop 2) with
      | false => rfl
      | true =>
        have hd : sentinel.drop 2 = ['^', '|'] := rfl
        rw [hd] at hp
        obtain ⟨hc, _⟩ := isP_head hp
        exact absurd (hc ▸ List.mem_cons_self c t2) hcaret
    | 3 =>
      cases hp : List.isPrefixOf (c :: t2) (sentinel.drop 3) with
      | false => rfl
      | true =>
        have hd : sentinel.drop 3 = ['|'] := rfl
        rw [hd] at hp
        obtain ⟨hc, _⟩ := isP_head hp
        exact absurd (hc ▸ List.mem_cons_self c t2) hbar
    | j + 4 =>
      have hd : sentinel.drop (j + 4) = [] := by simp [sentinel]
      rw [hd]
      cases hp : List.isPrefixOf (c :: t2) [] with
      | false => rfl
      | true =>
        exfalso
        rcases isP_iff_append.mp hp with ⟨w, hw⟩
        simp at hw

/-- A shaped string cannot occur inside `ch ++ sentinel` when every position
of `ch` is barren in `s = ch ++ x`. -/
theorem noOcc_chunk_sent {s ch x t : List Char} (hs : s = ch ++ x)
    (hnone : ∀ k, k < ch.length → matchPlaceholder (s.drop k) = none)
    (hsh : Shaped t) : noOcc t (ch ++ sentinel) := by
  intro k
  cases hp : List.isPrefixOf t ((ch ++ sentinel).drop k) with
  | false => rfl
  | true =>
    exfalso
    have hne := shaped_ne_nil hsh
    have hbar := shaped_bar hsh
    have hcaret := shaped_caret hsh
    rcases le_or_lt k ch.length with hk | hk
    · have hdrop : (ch ++ sentinel).drop k = ch.drop k ++ sentinel := by
        rw [List.drop_append_eq_append_drop]
        have hz : k - ch.length = 0 := by omega
        rw [hz]
        rfl
      rw [hdrop] at hp
      have hsent : ch.drop k ++ sentinel = ch.drop k ++ '|' :: ['^', '^', '|'] := rfl
      rw [hsent] at hp
      have hin : List.isPrefixOf t (ch.drop k) = true := pre_confine hbar hp
      have hklt : k < ch.length := by
        rcases Nat.lt_or_ge k ch.length with h2 | h2
        · exact h2
        · exfalso
          have hz : ch.drop k = [] := List.drop_eq_nil_of_le h2
          rw [hz] at hin
          rcases isP_iff_append.mp hin with ⟨w, hw⟩
          exact hne (by cases t <;> simp_all)
      have hins : List.isPrefixOf t (s.drop k) = true := by
        rw [hs, List.drop_append_eq_append_drop]
        have hz : k - ch.length = 0 := by omega
        rw [hz]
        exact isP_extend hin
      exact match_none_not_pre (hnone k hklt) hsh hins
    · have hdrop : (ch ++ sentinel).drop k = sentinel.drop (k - ch.length) := by
        rw [List.drop_append_eq_append_drop]
        have hz : ch.drop k = [] := List.drop_eq_nil_of_le (Nat.le_of_lt hk)
        rw [hz]
        rfl
      rw [hdrop] at hp
      have h3 := not_pre_sent_suffix hne hbar hcaret (k - ch.length) (by omega)
      rw [hp] at h3
      exact Bool.noConfusion h3

/-! ### `first_pass` masks exactly the matches -/

theorem maskCorrect_aux : ∀ (n : Nat) (s : List Char), s.length ≤ n →
    first_pass (findall s) s = maskAll s := by
  intro n
  induction n with
  | zero =>
    intro s hs
    have hz : s = [] := List.length_eq_zero.mp (Nat.le_zero.mp hs)
    subst hz
    rfl
  | succ n ih =>
    intro s hs
    rcases exists_decomp s with hbar | ⟨ch, m, rem, hdec, hnone, hsome⟩
    · rw [findall_barren hbar, maskAll_barren hbar]
      rfl
    · have hdropch : s.drop ch.length = m ++ rem := by
        rw [hdec, List.append_assoc, List.drop_append_eq_append_drop]
        simp
      rw [hdropch] at hsome
      have hshm : Shaped m := (match_spec hsome).1
      have hmne : m ≠ [] := shaped_ne_nil hshm
      have hchx : ch ++ (m ++ rem) = s := by rw [hdec, List.append_assoc]
      have hchunk : ∀ k, k < ch.length →
          matchPlaceholder ((ch ++ (m ++ rem)).drop k) = none := by
        intro k hk
        rw [hchx]
        exact hnone k hk
      have hfind : findall s = m :: findall rem := by
        rw [hdec, List.append_assoc, findall_chunk hchunk]
        exact findall_cons_some hsome
      have hmask : maskAll s = ch ++ sentinel ++ maskAll rem := by
        rw [hdec, List.append_assoc, maskAll_chunk hchunk]
        rw [maskAll_cons_some hsome, List.append_assoc]
      have hrep : replaceFirst m sentinel s = ch ++ sentinel ++ rem := by
        rw [hdec]
        exact replaceFirst_exact (fun k hk => by
          cases hpk : List.isPrefixOf m ((ch ++ m ++ rem).drop k) with
          | false => rfl
          | true =>
            exfalso
            exact match_none_not_pre (hnone k hk) hshm (by rw [hdec]; exact hpk))
      have hlrem : rem.length ≤ n := by
        have h1 : s.length = ch.length + m.length + rem.length := by
          rw [hdec]; simp [List.length_append]; omega
        have h2 : 1 ≤ m.length := by
          cases m with
          | nil => exact absurd rfl hmne
          | cons a l => simp
        omega
      rw [hfind]
      show first_pass (findall rem) (replaceFirst m sentinel s) = maskAll s
      rw [hrep, hmask]
      rw [first_pass_append_right (fun t ht => mem_findall_shaped ht)
        (fun t ht => noOcc_chunk_sent hchx.symm hnone (mem_findall_shaped ht))
        (Or.inr ⟨ch ++ ['|', '^', '^'], by simp [sentinel]⟩)]
      rw [ih rem hlrem]

/-- `first_pass` with the detected matches rewrites exactly the matched
occurrences to sentinels. -/
theorem maskCorrect (s : List Char) : first_pass (findall s) s = maskAll s :=
  maskCorrect_aux s.length s (le_refl s.length)

/-! ### The masked string is a sentinel/clean-character mixture -/

theorem isP_cons_inv {a : Char} {t v : List Char} (h : List.isPrefixOf (a :: t) v = true) :
    ∃ v2, v = a :: v2 ∧ List.isPrefixOf t v2 = true := by
  rcases isP_iff_append.mp h with ⟨w, rfl⟩
  exact ⟨t ++ w, by simp, isP_append t w⟩

theorem clean_mixform : ∀ {u : List Char}, (∀ c ∈ u, c ≠ '|' ∧ c ≠ '^') → MixForm u := by
  intro u
  induction u with
  | nil => intro _; exact MixForm.nil
  | cons c u ih =>
    intro h
    exact MixForm.clean c u (h c (List.mem_cons_self c u)).1 (h c (List.mem_cons_self c u)).2
      (ih (fun c2 hc2 => h c2 (List.mem_cons_of_mem c hc2)))

theorem mixform_clean_append : ∀ {q v : List Char}, (∀ c ∈ q, c ≠ '|' ∧ c ≠ '^') →
    MixForm v → MixForm (q ++ v) := by
  intro q
  induction q with
  | nil => intro v _ hv; simpa using hv
  | cons c q ih =>
    intro v h hv
    rw [List.cons_append]
    exact MixForm.clean c (q ++ v) (h c (List.mem_cons_self c q)).1
      (h c (List.mem_cons_self c q)).2
      (ih (fun c2 hc2 => h c2 (List.mem_cons_of_mem c hc2)) hv)

theorem mixform_maskAll : ∀ (n : Nat) {s : List Char}, s.length ≤ n →
    (∀ c ∈ s, c ≠ '|' ∧ c ≠ '^') → MixForm (maskAll s) := by
  intro n
  induction n with
  | zero =>
    intro s hs _
    have hz : s = [] := List.length_eq_zero.mp (Nat.le_zero.mp hs)
    subst hz
    exact MixForm.nil
  | succ n ih =>
    intro s hs hclean
    rcases exists_decomp s with hbar | ⟨ch, m, rem, hdec, hnone, hsome⟩
    · rw [maskAll_barren hbar]
      exact clean_mixform hclean
    · have hdropch : s.drop ch.length = m ++ rem := by
        rw [hdec, List.append_assoc, List.drop_append_eq_append_drop]
        simp
      rw [hdropch] at hsome
      have hmne : m ≠ [] := shaped_ne_nil (match_spec hsome).1
      have hchx : ch ++ (m ++ rem) = s := by rw [hdec, List.append_assoc]
      have hchunk : ∀ k, k < ch.length →
          matchPlaceholder ((ch ++ (m ++ rem)).drop k) = none := by
        intro k hk
        rw [hchx]
        exact hnone k hk
      have hmask : maskAll s = ch ++ sentinel ++ maskAll rem := by
        rw [hdec, List.append_assoc, maskAll_chunk hchunk]
        rw [maskAll_cons_some hsome, List.append_assoc]
      have hlrem : rem.length ≤ n := by
        have h1 : s.length = ch.length + m.length + rem.length := by
          rw [hdec]; simp [List.length_append]; omega
        have h2 : 1 ≤ m.length := by
          cases m with
          | nil => exact absurd rfl hmne
          | cons a l => simp
        omega
      have hcleanrem : ∀ c ∈ rem, c ≠ '|' ∧ c ≠ '^' := by
        intro c hc
        exact hclean c (by rw [hdec]; simp [hc])
      have hcleanch : ∀ c ∈ ch, c ≠ '|' ∧ c ≠ '^' := by
        intro c hc
        exact hclean c (by rw [hdec]; simp [hc])
      rw [hmask, List.append_assoc]
      exact mixform_clean_append hcleanch (MixForm.block (maskAll rem) (ih hlrem hcleanrem))

theorem mixform_no_legacy {v : List Char} (hv : MixForm v) :
    ∀ k, List.isPrefixOf legacySentinel (v.drop k) = false := by
  induction hv with
  | nil =>
    intro k
    rw [List.drop_nil]
    rfl
  | clean c u hc1 _ _ ih =>
    intro k
    match k with
    | 0 =>
      rw [List.drop_zero]
      cases hp : List.isPrefixOf legacySentinel (c :: u) with
      | false => rfl
      | true =>
        obtain ⟨hc, _⟩ := isP_head hp
        exact absurd hc.symm hc1
    | k + 1 =>
      rw [List.drop_succ_cons]
      exact ih k
  | block u hu ih =>
    intro k
    match k with
    | 0 =>
      rw [List.drop_zero]
      cases hp : List.isPrefixOf legacySentinel ('|' :: '^' :: '^' :: '|' :: u) with
      | false => rfl
      | true =>
        obtain ⟨_, hp2⟩ := isP_head hp
        obtain ⟨hsp, _⟩ := isP_head hp2
        exact absurd hsp (by decide)
    | 1 =>
      cases hp : List.isPrefixOf legacySentinel (('|' :: '^' :: '^' :: '|' :: u).drop 1) with
      | false => rfl
      | true =>
        rw [List.drop_succ_cons, List.drop_zero] at hp
        obtain ⟨hsp, _⟩ := isP_head hp
        exact absurd hsp (by decide)
    | 2 =>
      cases hp : List.isPrefixOf legacySentinel (('|' :: '^' :: '^' :: '|' :: u).drop 2) with
      | false => rfl
      | true =>
        rw [List.drop_succ_cons, List.drop_succ_cons, List.drop_zero] at hp
        obtain ⟨hsp, _⟩ := isP_head hp
        exact absurd hsp (by decide)
    | 3 =>
      cases hp : List.isPrefixOf legacySentinel (('|' :: '^' :: '^' :: '|' :: u).drop 3) with
      | false => rfl
      | true =>
        rw [List.drop_succ_cons, List.drop_succ_cons, List.drop_succ_cons,
          List.drop_zero] at hp
        obtain ⟨_, hp2⟩ := isP_head hp
        rcases isP_cons_inv hp2 with ⟨u1, hu1, hp3⟩
        rcases isP_cons_inv hp3 with ⟨u2, hu2, _⟩
        subst hu1
        cases hu with
        | clean c2 u3 _ hc2 hmf2 =>
          subst hu2
          cases hmf2 with
          | clean c3 u4 _ hc3 _ => exact absurd rfl hc3
    | k + 4 =>
      have hd : ('|' :: '^' :: '^' :: '|' :: u).drop (k + 4) = u.drop k := by
        simp [List.drop_succ_cons]
      rw [hd]
      exact ih k

/-- Sentinel-headed patterns do not occur at positions inside a clean
prefix. -/
theorem no_bar_pre_clean {pat : List Char} {t2 : List Char} (hpat : pat = '|' :: t2)
    {q X : List Char} (hq : ∀ c ∈ q, c ≠ '|' ∧ c ≠ '^') :
    ∀ k, k < q.length → List.isPrefixOf pat ((q ++ X).drop k) = false := by
  intro k hk
  have hdrop : (q ++ X).drop k = q.drop k ++ X := by
    rw [List.drop_append_eq_append_drop]
    have hz : k - q.length = 0 := by omega
    rw [hz]
    rfl
  rw [hdrop]
  cases hqd : q.drop k with
  | nil =>
    exfalso
    have := congrArg List.length hqd
    simp [List.length_drop] at this
    omega
  | cons c rest =>
    cases hp : List.isPrefixOf pat ((c :: rest) ++ X) with
    | false => rfl
    | true =>
      exfalso
      subst hpat
      rw [List.cons_append] at hp
      obtain ⟨hc, _⟩ := isP_head hp
      have hcq : c ∈ q := List.drop_subset k q (by rw [hqd]; exact List.mem_cons_self c rest)
      exact (hq c hcq).1 hc.symm

/-! ### `second_pass` restores the original string -/

theorem unmask_aux : ∀ (n : Nat) (s : List Char), s.length ≤ n →
    (∀ c ∈ s, c ≠ '|' ∧ c ≠ '^') → ∀ (p : List Char), (∀ c ∈ p, c ≠ '|' ∧ c ≠ '^') →
    second_pass (findall s) (p ++ maskAll s) = p ++ s := by
  intro n
  induction n with
  | zero =>
    intro s hs _ p _
    have hz : s = [] := List.length_eq_zero.mp (Nat.le_zero.mp hs)
    subst hz
    rfl
  | succ n ih =>
    intro s hs hclean p hcleanp
    rcases exists_decomp s with hbar | ⟨ch, m, rem, hdec, hnone, hsome⟩
    · rw [findall_barren hbar, maskAll_barren hbar]
      rfl
    · have hdropch : s.drop ch.length = m ++ rem := by
        rw [hdec, List.append_assoc, List.drop_append_eq_append_drop]
        simp
      rw [hdropch] at hsome
      have hshm : Shaped m := (match_spec hsome).1
      have hmne : m ≠ [] := shaped_ne_nil hshm
      have hchx : ch ++ (m ++ rem) = s := by rw [hdec, List.append_assoc]
      have hchunk : ∀ k, k < ch.length →
          matchPlaceholder ((ch ++ (m ++ rem)).drop k) = none := by
        intro k hk
        rw [hchx]
        exact hnone k hk
      have hfind : findall s = m :: findall rem := by
        rw [hdec, List.append_assoc, findall_chunk hchunk]
        exact findall_cons_some hsome
      have hmask : maskAll s = ch ++ sentinel ++ maskAll rem := by
        rw [hdec, List.append_assoc, maskAll_chunk hchunk]
        rw [maskAll_cons_some hsome, List.append_assoc]
      have hlrem : rem.length ≤ n := by
        have h1 : s.length = ch.length + m.length + rem.length := by
          rw [hdec]; simp [List.length_append]; omega
        have h2 : 1 ≤ m.length := by
          cases m with
          | nil => exact absurd rfl hmne
          | cons a l => simp
        omega
      have hcleanrem : ∀ c ∈ rem, c ≠ '|' ∧ c ≠ '^' := fun c hc =>
        hclean c (by rw [hdec]; simp [hc])
      have hcleanch : ∀ c ∈ ch, c ≠ '|' ∧ c ≠ '^' := fun c hc =>
        hclean c (by rw [hdec]; simp [hc])
      have hcleanm : ∀ c ∈ m, c ≠ '|' ∧ c ≠ '^' := fun c hc =>
        hclean c (by rw [hdec]; simp [hc])
      have hcleanpch : ∀ c ∈ p ++ ch, c ≠ '|' ∧ c ≠ '^' := by
        intro c hc
        rcases List.mem_append.mp hc with h2 | h2
        · exact hcleanp c h2
        · exact hcleanch c h2
      rw [hfind, hmask]
      show second_pass (findall rem)
        (replaceFirst legacySentinel m
          (replaceFirst sentinel m (p ++ (ch ++ sentinel ++ maskAll rem)))) = p ++ s
      have hre : p ++ (ch ++ sentinel ++ maskAll rem)
          = (p ++ ch) ++ sentinel ++ maskAll rem := by
        simp [List.append_assoc]
      rw [hre]
      rw [replaceFirst_exact (fun k hk => by
        have h2 := @no_bar_pre_clean sentinel ['^', '^', '|'] rfl (p ++ ch)
          (sentinel ++ maskAll rem) hcleanpch k hk
        rw [← List.append_assoc] at h2
        exact h2)]
      have hmix : MixForm ((p ++ ch) ++ m ++ maskAll rem) := by
        rw [List.append_assoc]
        exact mixform_clean_append hcleanpch
          (mixform_clean_append hcleanm (mixform_maskAll n hlrem hcleanrem))
      rw [replaceFirst_no_hit (mixform_no_legacy hmix)]
      have hre2 : (p ++ ch) ++ m ++ maskAll rem = (p ++ ch ++ m) ++ maskAll rem := by
        simp [List.append_assoc]
      rw [hre2]
      rw [ih rem hlrem hcleanrem (p ++ ch ++ m) (by
        intro c hc
        rcases List.mem_append.mp hc with h2 | h2
        · exact hcleanpch c h2
        · exact hcleanm c h2)]
      rw [hdec]
      simp [List.append_assoc]

/-- `second_pass` with the detected matches restores the original string
from its masked form, provided the original contains no `|` and no `^`. -/
theorem unmaskCorrect (s : List Char) (hclean : ∀ c ∈ s, c ≠ '|' ∧ c ≠ '^') :
    second_pass (findall s) (maskAll s) = s := by
  have h := unmask_aux s.length s (le_refl s.length) hclean [] (by simp)
  simpa using h

/-! ### Claim C1 -/

/-- C1 (counterexample): the round trip
`second_pass(detect(s), first_pass(detect(s), s)) = s` fails as stated for
every string: at `s = "|^^|%(a)s"` (a string that contains the sentinel
token next to a placeholder) the restored string is `"%(a)s|^^|"`, not `s`. -/
theorem c1_roundtrip_counterexample :
    second_pass (findall ['|', '^', '^', '|', '%', '(', 'a', ')', 's'])
      (first_pass (findall ['|', '^', '^', '|', '%', '(', 'a', ')', 's'])
        ['|', '^', '^', '|', '%', '(', 'a', ')', 's'])
      ≠ ['|', '^', '^', '|', '%', '(', 'a', ')', 's'] := by
  decide

/-- C1 (amended): for every string `s` containing N occurrences of the
recognized placeholder patterns (N from 0 upward, repeated identical
placeholders included) **and containing neither the character `|` nor the
character `^`** (so no fragment of the sentinel `|^^|` or of the legacy
sentinel can collide with the masking), unmasking the masked string with the
detected placeholder list reconstructs `s` exactly:
`second_pass (findall s) (first_pass (findall s) s) = s`. -/
theorem c1_roundtrip_amended (s : List Char) (h1 : '|' ∉ s) (h2 : '^' ∉ s) :
    second_pass (findall s) (first_pass (findall s) s) = s := by
  rw [maskCorrect]
  exact unmaskCorrect s (fun c hc =>
    ⟨fun he => h1 (he ▸ hc), fun he => h2 (he ▸ hc)⟩)

/-- C1 (witness): the amended round trip at the concrete string
`"a %(name)s b {{x}} %(name)s"`, which has three placeholder occurrences,
two of them identical. -/
theorem c1_roundtrip_amended_witness :
    ('|' ∉ ['a', ' ', '%', '(', 'n', 'a', 'm', 'e', ')', 's', ' ', 'b', ' ',
        '\x7b', '\x7b', 'x', '\x7d', '\x7d', ' ', '%', '(', 'n', 'a', 'm', 'e', ')', 's'] ∧
      '^' ∉ ['a', ' ', '%', '(', 'n', 'a', 'm', 'e', ')', 's', ' ', 'b', ' ',
        '\x7b', '\x7b', 'x', '\x7d', '\x7d', ' ', '%', '(', 'n', 'a', 'm', 'e', ')', 's']) ∧
    second_pass
      (findall ['a', ' ', '%', '(', 'n', 'a', 'm', 'e', ')', 's', ' ', 'b', ' ',
        '\x7b', '\x7b', 'x', '\x7d', '\x7d', ' ', '%', '(', 'n', 'a', 'm', 'e', ')', 's'])
      (first_pass
        (findall ['a', ' ', '%', '(', 'n', 'a', 'm', 'e', ')', 's', ' ', 'b', ' ',
          '\x7b', '\x7b', 'x', '\x7d', '\x7d', ' ', '%', '(', 'n', 'a', 'm', 'e', ')', 's'])
        ['a', ' ', '%', '(', 'n', 'a', 'm', 'e', ')', 's', ' ', 'b', ' ',
          '\x7b', '\x7b', 'x', '\x7d', '\x7d', ' ', '%', '(', 'n', 'a', 'm', 'e', ')', 's'])
      = ['a', ' ', '%', '(', 'n', 'a', 'm', 'e', ')', 's', ' ', 'b', ' ',
          '\x7b', '\x7b', 'x', '\x7d', '\x7d', ' ', '%', '(', 'n', 'a', 'm', 'e', ')', 's'] :=
  ⟨⟨by decide, by decide⟩,
    c1_roundtrip_amended _ (by decide) (by decide)⟩

/-! ### The entry loop -/

theorem runLoop_save_spec : ∀ (es : List EntrySpec) (ds : Bool),
    ((runLoop es ds).2.1 = true ∧ (runLoop es ds).2.2 = false) ↔
      ((∀ e ∈ es, (runEntry e).2 ≠ EntryEnd.fatalErr) ∧
        (ds = true ∨ ∃ e ∈ es, (runEntry e).2 = EntryEnd.normal)) := by
  intro es
  induction es with
  | nil =>
    intro ds
    simp only [runLoop]
    cases ds <;> simp
  | cons e es ih =>
    intro ds
    rcases hre : runEntry e with ⟨out, fin⟩
    have hfin : (runEntry e).2 = fin := by rw [hre]
    cases fin with
    | fatalErr =>
      simp only [runLoop, hre]
      constructor
      · rintro ⟨_, hab⟩
        exact absurd hab (by simp)
      · rintro ⟨hall, _⟩
        exact absurd hfin (hall e (List.mem_cons_self e es))
    | recovErr =>
      simp only [runLoop, hre]
      constructor
      · intro h
        obtain ⟨hall, hex⟩ := (ih ds).mp h
        refine ⟨?_, ?_⟩
        · intro e2 he2
          rcases List.mem_cons.mp he2 with rfl | he2
          · rw [hfin]; simp
          · exact hall e2 he2
        · rcases hex with hds | ⟨e2, he2, hn⟩
          · exact Or.inl hds
          · exact Or.inr ⟨e2, List.mem_cons_of_mem e he2, hn⟩
      · rintro ⟨hall, hex⟩
        refine (ih ds).mpr ⟨fun e2 he2 => hall e2 (List.mem_cons_of_mem e he2), ?_⟩
        rcases hex with hds | ⟨e2, he2, hn⟩
        · exact Or.inl hds
        · rcases List.mem_cons.mp he2 with rfl | he2
          · rw [hfin] at hn
            exact absurd hn (by simp)
          · exact Or.inr ⟨e2, he2, hn⟩
    | normal =>
      simp only [runLoop, hre]
      constructor
      · intro h
        obtain ⟨hall, _⟩ := (ih true).mp h
        refine ⟨?_, Or.inr ⟨e, List.mem_cons_self e es, hfin⟩⟩
        intro e2 he2
        rcases List.mem_cons.mp he2 with rfl | he2
        · rw [hfin]; simp
        · exact hall e2 he2
      · rintro ⟨hall, _⟩
        exact (ih true).mpr ⟨fun e2 he2 => hall e2 (List.mem_cons_of_mem e he2), Or.inl rfl⟩

theorem runLoop_outs : ∀ (es : List EntrySpec) (ds : Bool),
    (∀ e ∈ es, (runEntry e).2 ≠ EntryEnd.fatalErr) →
    (runLoop es ds).1 = es.map (fun e => (runEntry e).1) := by
  intro es
  induction es with
  | nil => intro ds _; rfl
  | cons e es ih =>
    intro ds hall
    rcases hre : runEntry e with ⟨out, fin⟩
    have hfin : (runEntry e).2 = fin := by rw [hre]
    have hout : (runEntry e).1 = out := by rw [hre]
    cases fin with
    | fatalErr => exact absurd hfin (hall e (List.mem_cons_self e es))
    | recovErr =>
      simp only [runLoop, hre, List.map_cons, hout]
      exact congrArg (List.cons out)
        (ih ds (fun e2 he2 => hall e2 (List.mem_cons_of_mem e he2)))
    | normal =>
      simp only [runLoop, hre, List.map_cons, hout]
      exact congrArg (List.cons out)
        (ih true (fun e2 he2 => hall e2 (List.mem_cons_of_mem e he2)))

theorem createps_saves_iff (es : List EntrySpec) :
    createps_saves es = true ↔
      ((∀ e ∈ es, (runEntry e).2 ≠ EntryEnd.fatalErr) ∧
        (∃ e ∈ es, (runEntry e).2 = EntryEnd.normal)) := by
  unfold createps_saves
  rw [Bool.and_eq_true, Bool.not_eq_true']
  rw [runLoop_save_spec es false]
  constructor
  · rintro ⟨hall, hex⟩
    rcases hex with h0 | hex
    · exact absurd h0 (by simp)
    · exact ⟨hall, hex⟩
  · rintro ⟨hall, hex⟩
    exact ⟨hall, Or.inr hex⟩

/-! ### Claim C2 -/

/-- C2 (code-bug evidence): with the sentry deadline at minute 100 and two
translate calls at minutes 100 and 101, the code refreshes the token on
*both* calls, because `process` rebinds only its local `sentry` variable
(`process_local_sentry_after`) and the loop in `createps` passes the
original deadline to every call.  The claim says the second call sees the
advanced deadline 100 + 8 and must not refresh — yet 101 < 108 and the
second refresh still happens. -/
theorem c2_sentry_never_advances :
    createps_refresh_seq 100 [100, 101] = [true, true] ∧
    process_local_sentry_after 100 100 = 108 ∧ 101 < 108 := by
  decide

/-! ### Claim C3 -/

/-- C3 (counterexample): a catalog whose single entry produces no
translation (`process` returned `None`, e.g. an RTL-skipped entry) is still
saved: `do_save` is set by the mere completion of the iteration, with every
translation field left unmutated. -/
theorem c3_saved_without_mutation :
    createps_saves [⟨false, PResult.ok none, PResult.ok none⟩] = true ∧
    (runLoop [⟨false, PResult.ok none, PResult.ok none⟩] false).1
      = [⟨none, none, none⟩] := by
  decide

/-- C3 (amended): the file is written back iff no entry raises
`ArgumentException` and at least one entry's iteration completes without an
exception — independently of whether any translation field was mutated. -/
theorem c3_saves_iff_completion (es : List EntrySpec) :
    createps_saves es = true ↔
      ((∀ e ∈ es, (runEntry e).2 ≠ EntryEnd.fatalErr) ∧
        (∃ e ∈ es, (runEntry e).2 = EntryEnd.normal)) :=
  createps_saves_iff es

/-! ### Claim C4 -/

theorem argEx_not_argOutOfRange {s : List Char} (h : strStarts argExMarker s = true) :
    strStarts argOutOfRangeMarker s = false := by
  cases h2 : strStarts argOutOfRangeMarker s with
  | false => rfl
  | true =>
    exfalso
    have h3 := @isP_trans_le argExMarker argOutOfRangeMarker s h h2 (by decide)
    exact absurd h3 (by decide)

theorem argEx_not_translateApi {s : List Char} (h : strStarts argExMarker s = true) :
    strStarts translateApiMarker s = false := by
  cases h2 : strStarts translateApiMarker s with
  | false => rfl
  | true =>
    exfalso
    have h3 := @isP_trans_le argExMarker translateApiMarker s h h2 (by decide)
    exact absurd h3 (by decide)

/-- C4: when the API returns a JSON string beginning with
`ArgumentException`, `Translator.call` raises `ArgumentError` and clears the
cached access token; the next call re-authenticates (stores the freshly
fetched token); and the entry loop, hitting the fatal error, leaves the
file unsaved. -/
theorem c4_argument_exception (tr : Translator) (tok tok2 s : List Char)
    (hpre : strStarts argExMarker s = true) (es : List EntrySpec)
    (hfat : ∃ e ∈ es, (runEntry e).2 = EntryEnd.fatalErr) :
    (Translator.call tr tok (JVal.jstr s)).1.access_token = none ∧
    (Translator.call tr tok (JVal.jstr s)).2 = Except.error CallErr.argErr ∧
    (Translator.call (Translator.call tr tok (JVal.jstr s)).1 tok2
        JVal.jother).1.access_token = some tok2 ∧
    createps_saves es = false := by
  have hcall : Translator.call tr tok (JVal.jstr s)
      = ({ ensureSession (ensureToken tr tok) with access_token := none },
          Except.error CallErr.argErr) := by
    unfold Translator.call
    simp only [checkRetval, argEx_not_argOutOfRange hpre, argEx_not_translateApi hpre, hpre]
    simp
  refine ⟨by rw [hcall], by rw [hcall], ?_, ?_⟩
  · rw [hcall]
    unfold Translator.call checkRetval ensureSession ensureToken
    simp [apply_ite Translator.access_token]
  · cases hsave : createps_saves es with
    | false => rfl
    | true =>
      exfalso
      obtain ⟨hall, _⟩ := (createps_saves_iff es).mp hsave
      obtain ⟨e, he, hfe⟩ := hfat
      exact hall e he hfe

/-- C4 (witness): the concrete response `"ArgumentException: bad token"`
with a one-entry catalog whose translate call raises the fatal error. -/
theorem c4_argument_exception_witness :
    (strStarts argExMarker (("ArgumentException: bad token").toList) = true ∧
      (∃ e ∈ [(⟨false, PResult.fatal, PResult.fatal⟩ : EntrySpec)],
        (runEntry e).2 = EntryEnd.fatalErr)) ∧
    ((Translator.call ⟨some ['o', 'l', 'd'], true, []⟩ ['n', 'e', 'w']
        (JVal.jstr (("ArgumentException: bad token").toList))).1.access_token = none ∧
      (Translator.call ⟨some ['o', 'l', 'd'], true, []⟩ ['n', 'e', 'w']
        (JVal.jstr (("ArgumentException: bad token").toList))).2
        = Except.error CallErr.argErr ∧
      (Translator.call (Translator.call ⟨some ['o', 'l', 'd'], true, []⟩ ['n', 'e', 'w']
          (JVal.jstr (("ArgumentException: bad token").toList))).1 ['n', '2']
          JVal.jother).1.access_token = some ['n', '2'] ∧
      createps_saves [(⟨false, PResult.fatal, PResult.fatal⟩ : EntrySpec)] = false) :=
  ⟨⟨by decide, by decide⟩,
    c4_argument_exception _ _ _ _ (by decide) _ (by decide)⟩

/-! ### Claim C5 -/

/-- C5: when no entry raises the fatal `ArgumentException` (entries either
succeed or fail with the recoverable `TranslateApiError` /
`ArgumentOutOfRangeError`), every entry is attempted and receives exactly
its own outcome, and the file is saved iff at least one entry completed
successfully. -/
theorem c5_recoverable_errors_skip_entry (es : List EntrySpec)
    (hnofatal : ∀ e ∈ es, (runEntry e).2 ≠ EntryEnd.fatalErr) :
    (runLoop es false).1 = es.map (fun e => (runEntry e).1) ∧
    (createps_saves es = true ↔ ∃ e ∈ es, (runEntry e).2 = EntryEnd.normal) := by
  refine ⟨runLoop_outs es false hnofatal, ?_⟩
  rw [createps_saves_iff es]
  constructor
  · rintro ⟨_, hex⟩
    exact hex
  · intro hex
    exact ⟨hnofatal, hex⟩

/-- C5 (witness): three entries, the middle one failing with
`TranslateApiException: quota`; the other two are translated and the file
is saved. -/
theorem c5_recoverable_errors_skip_entry_witness :
    (∀ e ∈ [(⟨false, PResult.ok (some ['x']), PResult.ok none⟩ : EntrySpec),
        ⟨false, PResult.recov, PResult.ok none⟩,
        ⟨false, PResult.ok (some ['y']), PResult.ok none⟩],
      (runEntry e).2 ≠ EntryEnd.fatalErr) ∧
    ((runLoop [(⟨false, PResult.ok (some ['x']), PResult.ok none⟩ : EntrySpec),
        ⟨false, PResult.recov, PResult.ok none⟩,
        ⟨false, PResult.ok (some ['y']), PResult.ok none⟩] false).1
      = [(⟨false, PResult.ok (some ['x']), PResult.ok none⟩ : EntrySpec),
          ⟨false, PResult.recov, PResult.ok none⟩,
          ⟨false, PResult.ok (some ['y']), PResult.ok none⟩].map
          (fun e => (runEntry e).1) ∧
      (createps_saves [(⟨false, PResult.ok (some ['x']), PResult.ok none⟩ : EntrySpec),
          ⟨false, PResult.recov, PResult.ok none⟩,
          ⟨false, PResult.ok (some ['y']), PResult.ok none⟩] = true ↔
        ∃ e ∈ [(⟨false, PResult.ok (some ['x']), PResult.ok none⟩ : EntrySpec),
          ⟨false, PResult.recov, PResult.ok none⟩,
          ⟨false, PResult.ok (some ['y']), PResult.ok none⟩],
          (runEntry e).2 = EntryEnd.normal)) :=
  ⟨by decide, c5_recoverable_errors_skip_entry _ (by decide)⟩

/-! ### Claim C6 -/

/-- C6 (code-bug evidence): for every caller option set, the `options`
value `translate_array` binds — the result of `{defaults}.update(options)`
— is Python's `None` (serialized as JSON `null`), never any dict, and in
particular not the merge of the defaults with the caller's overrides that
the claim describes. -/
theorem c6_options_update_returns_none
    (callerOptions : List (List Char × List Char)) :
    translate_array_options callerOptions = PyVal.vnone ∧
    translate_array_options callerOptions
      ≠ PyVal.vdict (specMergedOptions callerOptions) := by
  exact ⟨rfl, by simp [translate_array_options, dict_update_return]⟩

/-! ### Claim C7 -/

/-- C7 (counterexample): the Translator used for a catalog file is
constructed afresh inside `createps` (line 296); a token and language set
obtained while processing a previous file are not visible to the next
file's client. -/
theorem c7_client_not_shared_counterexample :
    (createps_translator ⟨some ['t', 'o', 'k'], true, [['e', 'n']]⟩).access_token
      ≠ some ['t', 'o', 'k'] ∧
    (createps_translator ⟨some ['t', 'o', 'k'], true, [['e', 'n']]⟩).langs
      ≠ [['e', 'n']] := by
  decide

/-- C7 (amended): no mutable state at all crosses catalog-file boundaries:
`createps` constructs a brand-new `Translator` for every file, so each file
starts with no access token and an empty cached language set and must
re-authenticate and re-fetch the language list. -/
theorem c7_fresh_client_per_file (prev : Translator) :
    createps_translator prev = Translator.new ∧
    (createps_translator prev).access_token = none ∧
    (createps_translator prev).langs = [] :=
  ⟨rfl, rfl, rfl⟩

/-! ### Claim C8 -/

/-- C8: for an entry whose source text contains at least one recognized
placeholder and a right-to-left target language (he/ar/fa/yi), `process`
returns `None` before any translate call or token refresh, and the entry
loop leaves every translation field of such an entry unset. -/
theorem c8_bidi_placeholder_skip (translate : List Char → CallOutcome)
    (raw lang : List Char) (now sentry : Nat)
    (hfound : findall raw ≠ []) (hbidi : lang ∈ languages_bidi) :
    (process translate raw lang now sentry).result = Except.ok none ∧
    (process translate raw lang now sentry).refreshed = false ∧
    runEntry ⟨false, PResult.ok none, PResult.ok none⟩
      = (⟨none, none, none⟩, EntryEnd.normal) ∧
    runEntry ⟨true, PResult.ok none, PResult.ok none⟩
      = (⟨none, none, none⟩, EntryEnd.normal) := by
  refine ⟨?_, ?_, by decide, by decide⟩ <;>
    · unfold process
      rw [if_pos ⟨hfound, hbidi⟩]

/-- C8 (witness): the source text `"%(name)s"` with target language `ar`. -/
theorem c8_bidi_placeholder_skip_witness :
    (findall ['%', '(', 'n', 'a', 'm', 'e', ')', 's'] ≠ [] ∧
      ['a', 'r'] ∈ languages_bidi) ∧
    ((process (fun _ => CallOutcome.ok ['X'])
        ['%', '(', 'n', 'a', 'm', 'e', ')', 's'] ['a', 'r'] 9 3).result
      = Except.ok none ∧
    (process (fun _ => CallOutcome.ok ['X'])
        ['%', '(', 'n', 'a', 'm', 'e', ')', 's'] ['a', 'r'] 9 3).refreshed = false ∧
    runEntry ⟨false, PResult.ok none, PResult.ok none⟩
      = (⟨none, none, none⟩, EntryEnd.normal) ∧
    runEntry ⟨true, PResult.ok none, PResult.ok none⟩
      = (⟨none, none, none⟩, EntryEnd.normal)) :=
  ⟨⟨by decide, by decide⟩,
    c8_bidi_placeholder_skip _ _ _ _ _ (by decide) (by decide)⟩

/-! ### Claim C9 -/

/-- C9: a catalog whose path-derived language is `zh` is never skipped by
the eligibility check — whatever the supported-language set and the
configured source language — and the target language used for its translate
calls is the remapped `zh-CHS`; `get_lang` derives `zh` from a
`.../zh/LC_MESSAGES/app.po` path. -/
theorem c9_zh_always_processed (supported : List (List Char))
    (default_lang : List Char) :
    createps_skip supported default_lang zhCode = false ∧
    createps_target_lang zhCode = zhCHS ∧
    get_lang [['a', 'p', 'p', 's'], zhCode,
      ['L', 'C', '_', 'M', 'E', 'S', 'S', 'A', 'G', 'E', 'S'],
      ['a', 'p', 'p', '.', 'p', 'o']] = zhCode := by
  refine ⟨?_, by decide, by decide⟩
  unfold createps_skip
  simp

/-! ### Claim C10 -/

/-- C10: plural forms are translated and stored independently: if the
plural call fails with a recoverable error after the singular result was
stored into slot `0`, the stored result remains and slot `1` stays empty;
conversely a `None` singular with a successful plural populates only slot
`1`; the loop continues past the failing entry and the run can end with a
plural entry holding exactly one populated slot. -/
theorem c10_plural_slots_independent (s t : List Char) (hs : s ≠ []) (ht : t ≠ []) :
    runEntry ⟨true, PResult.ok (some s), PResult.recov⟩
      = (⟨none, some s, none⟩, EntryEnd.recovErr) ∧
    runEntry ⟨true, PResult.ok none, PResult.ok (some t)⟩
      = (⟨none, none, some t⟩, EntryEnd.normal) ∧
    (runLoop [⟨true, PResult.ok (some s), PResult.recov⟩,
        ⟨false, PResult.ok (some t), PResult.ok none⟩] false).1
      = [⟨none, some s, none⟩, ⟨some t, none, none⟩] ∧
    createps_saves [⟨true, PResult.ok (some s), PResult.recov⟩,
        ⟨false, PResult.ok (some t), PResult.ok none⟩] = true := by
  have hs2 : s.isEmpty = false := by
    cases s with
    | nil => exact absurd rfl hs
    | cons a l => rfl
  have ht2 : t.isEmpty = false := by
    cases t with
    | nil => exact absurd rfl ht
    | cons a l => rfl
  unfold createps_saves runLoop runEntry store truthy
  simp [hs2, ht2, runLoop, runEntry, store, truthy]

/-- C10 (witness): concrete plural entries with nonempty translations. -/
theorem c10_plural_slots_independent_witness :
    ((['a'] : List Char) ≠ [] ∧ (['b'] : List Char) ≠ []) ∧
    (runEntry ⟨true, PResult.ok (some ['a']), PResult.recov⟩
      = (⟨none, some ['a'], none⟩, EntryEnd.recovErr) ∧
    runEntry ⟨true, PResult.ok none, PResult.ok (some ['b'])⟩
      = (⟨none, none, some ['b']⟩, EntryEnd.normal) ∧
    (runLoop [⟨true, PResult.ok (some ['a']), PResult.recov⟩,
        ⟨false, PResult.ok (some ['b']), PResult.ok none⟩] false).1
      = [⟨none, some ['a'], none⟩, ⟨some ['b'], none, none⟩] ∧
    createps_saves [⟨true, PResult.ok (some ['a']), PResult.recov⟩,
        ⟨false, PResult.ok (some ['b']), PResult.ok none⟩] = true) :=
  ⟨⟨by decide, by decide⟩,
    c10_plural_slots_independent ['a'] ['b'] (by decide) (by decide)⟩

end AutoTranslate
